import Mathlib

/-!
Verification development for the block-chain core in
`blockchain/chain.go` (block index, best-chain view, reorganization
engine, orphan pool, pruner and the public query surface).

Conventions of the shallow embedding:

* Hashes are `Nat`.  Machine integers of the source (`int64` heights,
  `uint32` totals) are embedded as `Nat`/`Int`; no arithmetic in the
  modelled fragments can overflow 63 bits.
* A `blockNode`'s parent pointer is embedded structurally: a node value
  carries its whole ancestor chain, so walking `parent` links is
  structural recursion.  The source's `height` field satisfies the
  documented index invariant `height = parent.height + 1` (0 for
  genesis) and is therefore embedded as a derived function.
* Pointer equality of `*blockNode` in the source corresponds to value
  equality of the embedded nodes (two entries of a well-formed index
  are the same entry iff their hash/ancestry agree).
* The mutable `status` bits of the index live outside the node values,
  in a map `Nat → Status` keyed by hash, mirroring how the source
  mutates `node.status` through the index.
* Helper components whose Go source is not part of this tree
  (`chainView` of chainview.go, the status bit-set of blockindex.go,
  `chainTips`, `headerApprovesParent`, `NextThresholdState`) are
  modelled from the specification; each such definition says so in its
  doc comment.
-/

/-- Modelled from the spec: the per-node validation status bit-set
over {HaveData, ValidateFailed, InvalidAncestor, Valid} maintained by
the block index (blockindex.go is not part of this source tree). -/
structure Status where
  haveData : Bool := false
  valid : Bool := false
  validateFailed : Bool := false
  invalidAncestor : Bool := false
deriving DecidableEq, Repr

/-- Modelled from the spec: `KnownValid` tests the Valid bit. -/
def Status.knownValid (s : Status) : Bool := s.valid

/-- Modelled from the spec: `KnownInvalid` tests the ValidateFailed and
InvalidAncestor bits. -/
def Status.knownInvalid (s : Status) : Bool := s.validateFailed || s.invalidAncestor

/-- The mutable block-index status, keyed by block hash. -/
abbrev StatusMap := Nat → Status

/-- `SetStatusFlags(node, statusValid)`: OR the Valid bit in. -/
def setStatusValid (m : StatusMap) (h : Nat) : StatusMap :=
  fun x => if x = h then { m x with valid := true } else m x

/-- `SetStatusFlags(node, statusValidateFailed)`: OR the ValidateFailed bit in. -/
def setStatusVFailed (m : StatusMap) (h : Nat) : StatusMap :=
  fun x => if x = h then { m x with validateFailed := true } else m x

/-- `SetStatusFlags(node, statusInvalidAncestor)`: OR the InvalidAncestor bit in. -/
def setStatusIAncestor (m : StatusMap) (h : Nat) : StatusMap :=
  fun x => if x = h then { m x with invalidAncestor := true } else m x

/-- A block-index entry (`blockNode`).  The parent back-reference is
embedded structurally, so a node value is its whole ancestor chain. -/
inductive BlockNode where
  | genesis (hash : Nat)
  | cons (hash : Nat) (parent : BlockNode)
deriving DecidableEq, Repr

/-- The entry's content hash. -/
def BlockNode.hashOf : BlockNode → Nat
  | .genesis h => h
  | .cons h _ => h

/-- The parent back-reference (`nil` only for genesis). -/
def BlockNode.parent : BlockNode → Option BlockNode
  | .genesis _ => none
  | .cons _ p => some p

/-- `height`: `parent.height + 1`, 0 for genesis (index invariant of the
spec, embedded as a derived function). -/
def BlockNode.height : BlockNode → Nat
  | .genesis _ => 0
  | .cons _ p => p.height + 1

/-- The genesis entry at the bottom of a node's ancestor chain. -/
def BlockNode.root : BlockNode → BlockNode
  | .genesis h => .genesis h
  | .cons _ p => p.root

/-- The ancestor of `n` at height `h` (`none` above `n.height`). -/
def BlockNode.ancestorAt (n : BlockNode) (h : Nat) : Option BlockNode :=
  if n.height = h then some n
  else match n with
    | .genesis _ => none
    | .cons _ p => p.ancestorAt h

/-- Modelled from the spec: the chain view is a dense height-indexed
projection of the branch ending at `tip` (chainview.go is not part of
this source tree); a branch is determined by its tip. -/
structure ChainView where
  tip : BlockNode
deriving DecidableEq, Repr

/-- Modelled from the spec: `node_by_height(h)` returns the view's
entry at height `h`, i.e. the tip's ancestor at that height. -/
def ChainView.nodeByHeight (v : ChainView) (h : Nat) : Option BlockNode :=
  v.tip.ancestorAt h

/-- Modelled from the spec: `contains(node)` is true iff
`view[node.height] == node`. -/
def ChainView.containsNode (v : ChainView) (n : BlockNode) : Bool :=
  v.nodeByHeight n.height = some n

/-- Modelled from the spec: `genesis()` is the view's entry at height 0,
which is the root of the tip's ancestor chain. -/
def ChainView.genesisNode (v : ChainView) : BlockNode :=
  v.tip.root

/-- Modelled from the spec: `next(node)` is the successor of `node` on
the view, or `none` when `node` is not on the view or is the tip. -/
def ChainView.next (v : ChainView) (n : BlockNode) : Option BlockNode :=
  if v.containsNode n then v.nodeByHeight (n.height + 1) else none

/-- Modelled from the spec: `find_fork(node)` walks `node` upward until
an ancestor is contained in the view. -/
def ChainView.findFork (v : ChainView) : BlockNode → Option BlockNode
  | .genesis g =>
    if v.containsNode (.genesis g) then some (.genesis g) else none
  | .cons d p =>
    if v.containsNode (.cons d p) then some (.cons d p) else v.findFork p

/-- Ancestor-chain basics. -/
theorem ancestorAt_self (n : BlockNode) : n.ancestorAt n.height = some n := by
  cases n <;> simp [BlockNode.ancestorAt]

theorem ancestorAt_none_of_gt (n : BlockNode) (h : Nat) (hgt : n.height < h) :
    n.ancestorAt h = none := by
  induction n with
  | genesis g => simp [BlockNode.ancestorAt, BlockNode.height] at *; omega
  | cons g p ih =>
    simp only [BlockNode.ancestorAt, BlockNode.height] at *
    have : ¬ (p.height + 1 = h) := by omega
    simp only [this, if_false]
    exact ih (by omega)

theorem ancestorAt_height (n a : BlockNode) (h : Nat)
    (ha : n.ancestorAt h = some a) : a.height = h := by
  induction n with
  | genesis g =>
    simp only [BlockNode.ancestorAt] at ha
    by_cases hh : BlockNode.height (.genesis g) = h
    · simp [hh] at ha; subst ha; exact hh
    · simp [hh] at ha
  | cons g p ih =>
    simp only [BlockNode.ancestorAt] at ha
    by_cases hh : BlockNode.height (.cons g p) = h
    · simp [hh] at ha; subst ha; exact hh
    · simp [hh] at ha; exact ih ha

theorem ancestorAt_isSome_of_le (n : BlockNode) (h : Nat) (hle : h ≤ n.height) :
    ∃ a, n.ancestorAt h = some a := by
  induction n with
  | genesis g =>
    simp [BlockNode.height] at hle
    subst hle
    exact ⟨.genesis g, ancestorAt_self _⟩
  | cons g p ih =>
    by_cases hh : BlockNode.height (.cons g p) = h
    · exact ⟨_, hh ▸ ancestorAt_self _⟩
    · have : h ≤ p.height := by
        simp [BlockNode.height] at hle hh ⊢; omega
      obtain ⟨a, ha⟩ := ih this
      exact ⟨a, by simp only [BlockNode.ancestorAt, hh, if_false]; exact ha⟩

/-- The parent of the view entry at height `h+1` is the entry at `h`. -/
theorem ancestorAt_parent (n a : BlockNode) (h : Nat)
    (ha : n.ancestorAt (h + 1) = some a) : a.parent = n.ancestorAt h := by
  induction n with
  | genesis g =>
    simp only [BlockNode.ancestorAt] at ha
    by_cases hh : BlockNode.height (.genesis g) = h + 1
    · simp [BlockNode.height] at hh
    · simp [hh] at ha
  | cons g p ih =>
    simp only [BlockNode.ancestorAt] at ha ⊢
    by_cases hh : BlockNode.height (.cons g p) = h + 1
    · rw [if_pos hh] at ha
      cases ha
      have hph : p.height = h := by simp [BlockNode.height] at hh; omega
      have : ¬ (BlockNode.height (.cons g p) = h) := by simp [BlockNode.height]; omega
      simp only [this, if_false, BlockNode.parent]
      exact (hph ▸ ancestorAt_self p).symm
    · rw [if_neg hh] at ha
      have hne : ¬ (BlockNode.height (.cons g p) = h) := by
        have := ancestorAt_height p a (h+1) ha
        intro hc
        have hle : h + 1 ≤ p.height := by
          by_contra hgt
          rw [ancestorAt_none_of_gt p (h+1) (by omega)] at ha
          exact Option.noConfusion ha
        simp [BlockNode.height] at hc; omega
      simp only [hne, if_false]
      exact ih ha

/-- A node is never equal to a strict extension of itself. -/
theorem cons_ne_parent (d : Nat) (p : BlockNode) : BlockNode.cons d p ≠ p := by
  intro h
  have : (BlockNode.cons d p).height = p.height := by rw [h]
  simp [BlockNode.height] at this

/-! ### getReorganizeNodes (chain.go) and the forced-reorg call site -/

/-- Marking loop of getReorganizeNodes: set InvalidAncestor on every
node collected on the attach list so far. -/
def markInvalidAncestors (st : StatusMap) (l : List BlockNode) : StatusMap :=
  l.foldl (fun acc n => setStatusIAncestor acc n.hashOf) st

/-- The attach-side walk of getReorganizeNodes:
`for n := node; n != nil && n != forkNode; n = n.parent`.  Each step a
known-invalid node aborts the reorg, marking the collected descendants;
otherwise `n` is pushed onto the front of the attach list.  Returns the
possibly updated status map, the attach list, and whether the walk
completed (false = aborted on a known-invalid node). -/
def reorgAttachWalk (fork : Option BlockNode) :
    BlockNode → StatusMap → List BlockNode → StatusMap × List BlockNode × Bool
  | n, st, acc =>
    if some n = fork then (st, acc, true)
    else if (st n.hashOf).knownInvalid then (markInvalidAncestors st acc, [], false)
    else match n with
      | .genesis g => (st, .genesis g :: acc, true)
      | .cons d p => reorgAttachWalk fork p st (.cons d p :: acc)

/-- The detach-side walk of getReorganizeNodes:
`for n := tip; n != nil && n != forkNode; n = n.parent`, pushing each
node onto the back of the detach list. -/
def reorgDetachWalk (fork : Option BlockNode) : BlockNode → List BlockNode
  | .genesis g => if some (BlockNode.genesis g) = fork then [] else [.genesis g]
  | .cons d p =>
    if some (BlockNode.cons d p) = fork then []
    else .cons d p :: reorgDetachWalk fork p

/-- `getReorganizeNodes(node)`: returns the (possibly updated) status
map together with the detach and attach lists, in that order, exactly
as the source returns `detachNodes, attachNodes`.  The source would
dereference a nil parent if handed the genesis node; that case never
arises for the call sites modelled here and is embedded as skipping the
parent pre-check. -/
def getReorganizeNodes (st : StatusMap) (v : ChainView) :
    Option BlockNode → StatusMap × List BlockNode × List BlockNode
  | none => (st, [], [])
  | some n =>
    let core :=
      let fork := v.findFork n
      let r := reorgAttachWalk fork n st []
      if r.2.2 then (r.1, reorgDetachWalk fork v.tip, r.2.1)
      else (r.1, [], [])
    match n.parent with
    | some p =>
      if (st p.hashOf).knownInvalid then (setStatusIAncestor st n.hashOf, [], [])
      else core
    | none => core

/-- The pair of list arguments the forced-head-reorg call site hands to
`reorganizeChain`.  The source reads
`attach, detach := b.getReorganizeNodes(newBestNode)` followed by
`b.reorganizeChain(attach, detach)`, and `reorganizeChain`'s parameters
are `(detachNodes, attachNodes)`: the local named `attach` (bound to
getReorganizeNodes' first result, the detach list) is passed as the
detach parameter, and the local named `detach` (bound to the second
result, the attach list) as the attach parameter. -/
def forceHeadReorgPassedArgs (st : StatusMap) (v : ChainView)
    (newBestNode : BlockNode) : List BlockNode × List BlockNode :=
  let r := getReorganizeNodes st v (some newBestNode)
  let attach := r.2.1
  let detach := r.2.2
  (attach, detach)

/-! ### Lemmas about the view and the reorg walks -/

theorem containsNode_tip (v : ChainView) : v.containsNode v.tip = true := by
  simp [ChainView.containsNode, ChainView.nodeByHeight, ancestorAt_self]

theorem containsNode_parent_of_tip (d : Nat) (p : BlockNode) :
    (ChainView.mk (.cons d p)).containsNode p = true := by
  simp only [ChainView.containsNode, ChainView.nodeByHeight, BlockNode.ancestorAt]
  have hne : ¬ (BlockNode.height (.cons d p) = p.height) := by
    simp [BlockNode.height]
  simp [hne, ancestorAt_self]

theorem findFork_of_contains (v : ChainView) (n : BlockNode)
    (h : v.containsNode n = true) : v.findFork n = some n := by
  cases n <;> simp [ChainView.findFork, h]

theorem reorgDetachWalk_self (n : BlockNode) : reorgDetachWalk (some n) n = [] := by
  cases n <;> simp [reorgDetachWalk]

theorem reorgAttachWalk_at_fork (n : BlockNode) (st : StatusMap)
    (acc : List BlockNode) : reorgAttachWalk (some n) n st acc = (st, acc, true) := by
  cases n <;> simp [reorgAttachWalk]

theorem markInvalidAncestors_preserves (st : StatusMap) (l : List BlockNode) (x : Nat)
    (h : (st x).invalidAncestor = true) :
    ((markInvalidAncestors st l) x).invalidAncestor = true := by
  induction l generalizing st with
  | nil => exact h
  | cons a rest ih =>
    simp only [markInvalidAncestors, List.foldl_cons] at *
    apply ih
    simp only [setStatusIAncestor]
    by_cases hx : x = a.hashOf <;> simp [hx, h]

theorem markInvalidAncestors_marks (st : StatusMap) (l : List BlockNode) (d : BlockNode)
    (h : d ∈ l) : ((markInvalidAncestors st l) d.hashOf).invalidAncestor = true := by
  induction l generalizing st with
  | nil => simp at h
  | cons a rest ih =>
    simp only [markInvalidAncestors, List.foldl_cons]
    rcases List.mem_cons.mp h with rfl | hmem
    · apply markInvalidAncestors_preserves
      simp [setStatusIAncestor]
    · exact ih _ hmem

/-- When some node on the walk from `n` down to the fork point is known
invalid, the attach walk aborts with empty output and marks everything
it had collected (plus the incoming accumulator) `InvalidAncestor`. -/
theorem reorgAttachWalk_abort (fork : Option BlockNode) (n : BlockNode) :
    ∀ (st : StatusMap) (acc : List BlockNode),
    (∃ m ∈ reorgDetachWalk fork n, (st m.hashOf).knownInvalid = true) →
    ∃ st2, reorgAttachWalk fork n st acc = (st2, [], false) ∧
      ∀ d, d ∈ acc ∨
          d ∈ (reorgDetachWalk fork n).takeWhile
              (fun m => !(st m.hashOf).knownInvalid) →
        (st2 d.hashOf).invalidAncestor = true := by
  induction n with
  | genesis g =>
    intro st acc hinv
    by_cases hf : some (BlockNode.genesis g) = fork
    · obtain ⟨m, hm, _⟩ := hinv
      simp [reorgDetachWalk, hf] at hm
    · obtain ⟨m, hm, hmi⟩ := hinv
      simp only [reorgDetachWalk, hf, if_false, List.mem_singleton] at hm
      subst hm
      refine ⟨markInvalidAncestors st acc, ?_, ?_⟩
      · simp [reorgAttachWalk, hf, hmi]
      · intro d hd
        rcases hd with hd | hd
        · exact markInvalidAncestors_marks st acc d hd
        · simp [reorgDetachWalk, hf, List.takeWhile, hmi] at hd
  | cons g p ih =>
    intro st acc hinv
    by_cases hf : some (BlockNode.cons g p) = fork
    · obtain ⟨m, hm, _⟩ := hinv
      simp [reorgDetachWalk, hf] at hm
    · by_cases hni : (st (BlockNode.cons g p).hashOf).knownInvalid = true
      · refine ⟨markInvalidAncestors st acc, ?_, ?_⟩
        · simp [reorgAttachWalk, hf, hni]
        · intro d hd
          rcases hd with hd | hd
          · exact markInvalidAncestors_marks st acc d hd
          · simp [reorgDetachWalk, hf, List.takeWhile, hni] at hd
      · have hni' : (st (BlockNode.cons g p).hashOf).knownInvalid = false := by
          simpa using hni
        obtain ⟨m, hm, hmi⟩ := hinv
        have hm' : m ∈ reorgDetachWalk fork p := by
          simp only [reorgDetachWalk, hf, if_false, List.mem_cons] at hm
          rcases hm with rfl | hm
          · exact absurd hmi (by simp [hni'])
          · exact hm
        obtain ⟨st2, heq, hmark⟩ := ih st (BlockNode.cons g p :: acc) ⟨m, hm', hmi⟩
        refine ⟨st2, ?_, ?_⟩
        · simpa [reorgAttachWalk, hf, hni'] using heq
        · intro d hd
          apply hmark
          rcases hd with hd | hd
          · exact Or.inl (List.mem_cons_of_mem _ hd)
          · simp only [reorgDetachWalk, hf, if_false, List.takeWhile_cons, hni',
              Bool.not_false, if_true] at hd
            rcases List.mem_cons.mp hd with rfl | hd
            · exact Or.inl (List.mem_cons_self _ _)
            · exact Or.inr hd

/-- The nodes the attach walk of getReorganizeNodes actually collects
before aborting: none when the direct-parent pre-check already rejects
the reorg, and otherwise the prefix of the walk before the first
known-invalid node. -/
def execCollected (st : StatusMap) (v : ChainView) (n : BlockNode) : List BlockNode :=
  let path := (reorgDetachWalk (v.findFork n) n).takeWhile
    (fun m => !(st m.hashOf).knownInvalid)
  match n.parent with
  | some p => if (st p.hashOf).knownInvalid then [] else path
  | none => path

/-- C7: for every node whose path down to (but excluding) the fork point
contains a known-invalid node, getReorganizeNodes returns empty detach
and attach lists, and every descendant of the invalid node collected
during the walk has InvalidAncestor set in the returned status. -/
theorem getReorganizeNodes_invalid_path (st : StatusMap) (v : ChainView) (n : BlockNode)
    (hinv : ∃ m ∈ reorgDetachWalk (v.findFork n) n, (st m.hashOf).knownInvalid = true) :
    (getReorganizeNodes st v (some n)).2.1 = [] ∧
    (getReorganizeNodes st v (some n)).2.2 = [] ∧
    ∀ d ∈ execCollected st v n,
      ((getReorganizeNodes st v (some n)).1 d.hashOf).invalidAncestor = true := by
  cases n with
  | genesis g =>
    obtain ⟨st2, heq, hmark⟩ :=
      reorgAttachWalk_abort (v.findFork (.genesis g)) (.genesis g) st [] hinv
    have hmain : getReorganizeNodes st v (some (.genesis g)) = (st2, [], []) := by
      simp [getReorganizeNodes, BlockNode.parent, heq]
    refine ⟨by simp [hmain], by simp [hmain], ?_⟩
    intro d hd
    rw [hmain]
    apply hmark
    right
    simpa [execCollected] using hd
  | cons g p =>
    by_cases hp : (st p.hashOf).knownInvalid = true
    · refine ⟨?_, ?_, ?_⟩ <;>
        simp [getReorganizeNodes, BlockNode.parent, hp, execCollected]
    · obtain ⟨st2, heq, hmark⟩ :=
        reorgAttachWalk_abort (v.findFork (.cons g p)) (.cons g p) st [] hinv
      have hp' : (st p.hashOf).knownInvalid = false := by simpa using hp
      have hmain : getReorganizeNodes st v (some (.cons g p)) = (st2, [], []) := by
        simp [getReorganizeNodes, BlockNode.parent, hp', heq]
      refine ⟨by simp [hmain], by simp [hmain], ?_⟩
      intro d hd
      rw [hmain]
      apply hmark
      right
      simpa [execCollected, BlockNode.parent, hp'] using hd

/-- C7 witness: a side chain `b ← c` off a main chain `g ← a`, where `b`
has ValidateFailed: the reorg to `c` is refused with empty lists and `c`
is marked InvalidAncestor. -/
theorem getReorganizeNodes_invalid_path_witness :
    ((getReorganizeNodes
        (fun h => if h = 2 then { validateFailed := true } else {})
        (ChainView.mk (.cons 1 (.genesis 0)))
        (some (.cons 3 (.cons 2 (.genesis 0))))).2.1 = [] ∧
     (getReorganizeNodes
        (fun h => if h = 2 then { validateFailed := true } else {})
        (ChainView.mk (.cons 1 (.genesis 0)))
        (some (.cons 3 (.cons 2 (.genesis 0))))).2.2 = [] ∧
     ∀ d ∈ execCollected
        (fun h => if h = 2 then { validateFailed := true } else {})
        (ChainView.mk (.cons 1 (.genesis 0)))
        (.cons 3 (.cons 2 (.genesis 0))),
       ((getReorganizeNodes
          (fun h => if h = 2 then { validateFailed := true } else {})
          (ChainView.mk (.cons 1 (.genesis 0)))
          (some (.cons 3 (.cons 2 (.genesis 0))))).1 d.hashOf).invalidAncestor = true) :=
  getReorganizeNodes_invalid_path
    (fun h => if h = 2 then { validateFailed := true } else {})
    (ChainView.mk (.cons 1 (.genesis 0)))
    (.cons 3 (.cons 2 (.genesis 0)))
    (by refine ⟨.cons 2 (.genesis 0), ?_, ?_⟩ <;> decide)

/-- C1: for a forced head reorganization from the current tip to a
validated sibling target (same parent, not known invalid, parent not
known invalid), the pair the call site passes to `reorganizeChain` is
precisely (detach = [former best], attach = [target]): despite the
swapped variable names at the call site, the list bound to
reorganizeChain's detach parameter is `[tip]` and the list bound to its
attach parameter is `[target]`. -/
theorem forceHeadReorg_passes_detach_former_attach_target
    (st : StatusMap) (p : BlockNode) (dt dn : Nat) (hne : dn ≠ dt)
    (htgt : (st (BlockNode.cons dn p).hashOf).knownInvalid = false)
    (hpar : (st p.hashOf).knownInvalid = false) :
    forceHeadReorgPassedArgs st (ChainView.mk (.cons dt p)) (.cons dn p) =
      ([BlockNode.cons dt p], [BlockNode.cons dn p]) := by
  have hcontF : (ChainView.mk (.cons dt p)).containsNode (.cons dn p) = false := by
    simp only [ChainView.containsNode, ChainView.nodeByHeight,
      decide_eq_false_iff_not]
    intro hmem
    simp only [BlockNode.ancestorAt] at hmem
    rw [if_pos (by simp [BlockNode.height])] at hmem
    injection hmem with hmem2
    injection hmem2 with hh hp2
    exact hne hh.symm
  have hfork : (ChainView.mk (.cons dt p)).findFork (.cons dn p) = some p := by
    rw [ChainView.findFork, if_neg (by simp [hcontF])]
    exact findFork_of_contains _ _ (containsNode_parent_of_tip dt p)
  have hwalk : reorgAttachWalk (some p) (.cons dn p) st [] =
      (st, [BlockNode.cons dn p], true) := by
    show (if some (BlockNode.cons dn p) = some p then (st, ([] : List BlockNode), true)
      else if (st (BlockNode.cons dn p).hashOf).knownInvalid = true
        then (markInvalidAncestors st [], [], false)
      else reorgAttachWalk (some p) p st [BlockNode.cons dn p]) =
      (st, [BlockNode.cons dn p], true)
    rw [if_neg (by simp; exact cons_ne_parent dn p)]
    rw [if_neg (by simp [htgt])]
    exact reorgAttachWalk_at_fork p st [BlockNode.cons dn p]
  have hdetach : reorgDetachWalk (some p) (.cons dt p) = [BlockNode.cons dt p] := by
    rw [reorgDetachWalk]
    rw [if_neg (by simp; exact cons_ne_parent dt p)]
    rw [reorgDetachWalk_self]
  simp only [forceHeadReorgPassedArgs, getReorganizeNodes, BlockNode.parent, hpar,
    Bool.false_eq_true, if_false, hfork, hwalk, hdetach]
  simp

/-- C1 witness: genesis parent, tip hash 1, target hash 2. -/
theorem forceHeadReorg_passes_args_witness :
    forceHeadReorgPassedArgs (fun _ => {}) (ChainView.mk (.cons 1 (.genesis 0)))
      (.cons 2 (.genesis 0)) =
      ([BlockNode.cons 1 (.genesis 0)], [BlockNode.cons 2 (.genesis 0)]) :=
  forceHeadReorg_passes_detach_former_attach_target (fun _ => {}) (.genesis 0) 1 2
    (by decide) (by decide) (by decide)

/-! ### reorganizeChain (chain.go): two-phase reorg with dry run -/

/-- Result of a `checkConnectBlock` call, abstracted as an oracle over
the node being checked: success, a typed RuleError (carrying an error
id), or any other error.  Per the spec the validator is a pure function
of (block, parent, view). -/
inductive CheckRes where
  | ok
  | ruleErr (e : Nat)
  | otherErr (e : Nat)
deriving DecidableEq, Repr

/-- Observable effects of the tip engine: committed atomic durable
store transactions (one per connected/disconnected block) and emitted
notifications. -/
inductive Ev where
  | dbWrite (h : Nat)
  | notifyReorg
  | notifyReorgStarted
  | notifyReorgDone
  | notifyConnected (h : Nat)
  | notifyDisconnected (h : Nat)
deriving DecidableEq, Repr

/-- The engine state reorganizeChain acts on: the block-index status
map, the best-chain tip, the published best-state snapshot (abstracted
to the hash of the block it describes) and the effect log. -/
structure ChainState where
  status : StatusMap
  tipNode : BlockNode
  snapshotHash : Nat
  log : List Ev

/-- Outcome of reorganizeChain: success, the propagated RuleError or
other error from phase 1, or a panic from the entry assertions. -/
inductive ReorgOutcome where
  | ok
  | ruleFail (e : Nat)
  | otherFail (e : Nat)
  | panicked
deriving DecidableEq, Repr

/-- Phase-1 error classification threaded out of the attach dry run. -/
inductive Phase1Err where
  | rule (e : Nat)
  | other (e : Nat)
deriving DecidableEq, Repr

/-- The attach half of phase 1 (the dry run): walk the attach list; a
node already KnownValid only has its transactions applied to the
scratch view; otherwise `checkConnectBlock` runs, and on a RuleError
the node is marked ValidateFailed, every remaining attach node is
marked InvalidAncestor, and the walk aborts.  On success the node is
marked Valid.  The scratch UTXO view is pure in-memory state with no
observable effect, so it is not threaded here. -/
def reorgCheckAttach (check : Nat → CheckRes) :
    List BlockNode → StatusMap → StatusMap × Option Phase1Err
  | [], st => (st, none)
  | n :: rest, st =>
    if (st n.hashOf).knownValid then reorgCheckAttach check rest st
    else match check n.hashOf with
      | .ok => reorgCheckAttach check rest (setStatusValid st n.hashOf)
      | .ruleErr e =>
        (markInvalidAncestors (setStatusVFailed st n.hashOf) rest, some (.rule e))
      | .otherErr e => (st, some (.other e))

/-- `disconnectBlock` for one detach step of phase 2: a single atomic
store transaction (best state, reverted UTXO diff, spend-journal
deletion, stake DB), then the tip moves to the parent, the snapshot is
republished and BlockDisconnected is emitted.  Store writes always
succeed in this model. -/
def disconnectBlockStep (s : ChainState) (n : BlockNode) : ChainState :=
  let pHash := match n.parent with | some q => q.hashOf | none => n.hashOf
  { s with log := s.log ++ [.dbWrite n.hashOf, .notifyDisconnected n.hashOf],
           tipNode := match n.parent with | some q => q | none => s.tipNode,
           snapshotHash := pHash }

/-- `connectBlock` for one attach step of phase 2: a single atomic
store transaction, tip moves to the node, snapshot republished,
BlockConnected emitted (the additional stake notifications past
StakeEnabledHeight are elided: any notification at all already
distinguishes phase 2 from phase 1). -/
def connectBlockStep (s : ChainState) (n : BlockNode) : ChainState :=
  { s with log := s.log ++ [.dbWrite n.hashOf, .notifyConnected n.hashOf],
           tipNode := n, snapshotHash := n.hashOf }

/-- The entry assertions of reorganizeChain: the first detach node must
be the current tip and the first attach node must share its parent with
the last detach node (both are `panicf` calls in the source). -/
def reorgGuardsFail (detach attach : List BlockNode) (tip : BlockNode) : Bool :=
  (match detach.head? with
   | some d => decide (d.hashOf ≠ tip.hashOf)
   | none => false) ||
  (match attach.head?, detach.getLast? with
   | some a, some d =>
     decide ((a.parent.map BlockNode.hashOf) ≠ (d.parent.map BlockNode.hashOf))
   | _, _ => false)

/-- `reorganizeChain(detachNodes, attachNodes)`: entry checks, phase 1
(a pure dry run over a scratch view: the detach half only loads blocks
and journals and mutates the scratch view, so it touches no engine
state; the attach half is `reorgCheckAttach`), and only if the dry run
succeeds the notifications and the phase-2 commit loops.  Block/journal
loads are modelled as always succeeding. -/
def reorganizeChain (check : Nat → CheckRes) (detach attach : List BlockNode)
    (s : ChainState) : ReorgOutcome × ChainState :=
  if detach.isEmpty && attach.isEmpty then (.ok, s)
  else if reorgGuardsFail detach attach s.tipNode then (.panicked, s)
  else
    match reorgCheckAttach check attach s.status with
    | (st1, some (.rule e)) => (.ruleFail e, { s with status := st1 })
    | (st1, some (.other e)) => (.otherFail e, { s with status := st1 })
    | (st1, none) =>
      let s1 : ChainState := { s with status := st1 }
      let s2 : ChainState :=
        { s1 with log := s1.log ++ [Ev.notifyReorg, Ev.notifyReorgStarted] }
      let s3 := detach.foldl disconnectBlockStep s2
      let s4 := attach.foldl connectBlockStep s3
      (.ok, { s4 with log := s4.log ++ [Ev.notifyReorgDone] })

theorem setStatusValid_preserves_knownValid (st : StatusMap) (h x : Nat)
    (hv : (st x).knownValid = true) :
    ((setStatusValid st h) x).knownValid = true := by
  simp only [setStatusValid]
  by_cases hx : x = h <;> simp_all [Status.knownValid]

theorem setStatusValid_untouched (st : StatusMap) (h x : Nat) (hx : x ≠ h) :
    (setStatusValid st h) x = st x := by
  simp [setStatusValid, hx]

theorem markInvalidAncestors_validateFailed (st : StatusMap) (l : List BlockNode)
    (x : Nat) :
    ((markInvalidAncestors st l) x).validateFailed = (st x).validateFailed := by
  induction l generalizing st with
  | nil => rfl
  | cons a rest ih =>
    simp only [markInvalidAncestors, List.foldl_cons] at *
    rw [ih]
    simp only [setStatusIAncestor]
    by_cases hx : x = a.hashOf <;> simp [hx]

/-- Walking a prefix of attach nodes that are already valid or pass the
dry-run check leaves phase 1 running on the suffix, with a status map
that only gained Valid bits on the prefix hashes. -/
theorem reorgCheckAttach_prefix (check : Nat → CheckRes) (rest : List BlockNode) :
    ∀ (pre : List BlockNode) (st : StatusMap),
    (∀ m ∈ pre, (st m.hashOf).knownValid = true ∨ check m.hashOf = .ok) →
    ∃ st2, reorgCheckAttach check (pre ++ rest) st = reorgCheckAttach check rest st2 ∧
      (∀ x, (∀ m ∈ pre, m.hashOf ≠ x) → st2 x = st x) := by
  intro pre
  induction pre with
  | nil => exact fun st _ => ⟨st, rfl, fun _ _ => rfl⟩
  | cons m pre ih =>
    intro st hok
    by_cases hv : (st m.hashOf).knownValid = true
    · obtain ⟨st2, heq, huntouched⟩ := ih st (fun q hq => hok q (List.mem_cons_of_mem _ hq))
      refine ⟨st2, ?_, ?_⟩
      · simpa only [List.cons_append, reorgCheckAttach, hv, if_true] using heq
      · intro x hx
        exact huntouched x (fun q hq => hx q (List.mem_cons_of_mem _ hq))
    · have hchk : check m.hashOf = .ok := by
        rcases hok m (List.mem_cons_self _ _) with h | h
        · exact absurd h hv
        · exact h
      have hok2 : ∀ q ∈ pre, ((setStatusValid st m.hashOf) q.hashOf).knownValid = true ∨
          check q.hashOf = .ok := by
        intro q hq
        rcases hok q (List.mem_cons_of_mem _ hq) with h | h
        · exact Or.inl (setStatusValid_preserves_knownValid st m.hashOf q.hashOf h)
        · exact Or.inr h
      obtain ⟨st2, heq, huntouched⟩ := ih (setStatusValid st m.hashOf) hok2
      refine ⟨st2, ?_, ?_⟩
      · have hv' : (st m.hashOf).knownValid = false := by simpa using hv
        simpa only [List.cons_append, reorgCheckAttach, hv', Bool.false_eq_true,
          if_false, hchk] using heq
      · intro x hx
        rw [huntouched x (fun q hq => hx q (List.mem_cons_of_mem _ hq))]
        exact setStatusValid_untouched st m.hashOf x
          (fun hcontra => hx m (List.mem_cons_self _ _) (hcontra.symm) )

/-- C2: when `checkConnectBlock` reports a RuleError for an attach node
during the phase-1 dry run, reorganizeChain returns that error before a
single disconnectBlock or connectBlock: the tip, the published
best-state snapshot and the effect log (durable writes, notifications)
are unchanged, the failing node gains ValidateFailed and every attach
node after it gains InvalidAncestor. -/
theorem reorganizeChain_phase1_ruleError (check : Nat → CheckRes) (s : ChainState)
    (detach pre post : List BlockNode) (n : BlockNode) (e : Nat)
    (hguard : reorgGuardsFail detach (pre ++ n :: post) s.tipNode = false)
    (hpre : ∀ m ∈ pre, (s.status m.hashOf).knownValid = true ∨ check m.hashOf = .ok)
    (hprehash : ∀ m ∈ pre, m.hashOf ≠ n.hashOf)
    (hnv : (s.status n.hashOf).knownValid = false)
    (hrule : check n.hashOf = .ruleErr e) :
    (reorganizeChain check detach (pre ++ n :: post) s).1 = .ruleFail e ∧
    (reorganizeChain check detach (pre ++ n :: post) s).2.log = s.log ∧
    (reorganizeChain check detach (pre ++ n :: post) s).2.tipNode = s.tipNode ∧
    (reorganizeChain check detach (pre ++ n :: post) s).2.snapshotHash =
      s.snapshotHash ∧
    ((reorganizeChain check detach (pre ++ n :: post) s).2.status
      n.hashOf).validateFailed = true ∧
    ∀ m ∈ post, ((reorganizeChain check detach (pre ++ n :: post) s).2.status
      m.hashOf).invalidAncestor = true := by
  obtain ⟨st2, heq, huntouched⟩ :=
    reorgCheckAttach_prefix check (n :: post) pre s.status hpre
  have hn2 : (st2 n.hashOf).knownValid = false := by
    rw [huntouched n.hashOf hprehash]; exact hnv
  have hrun : reorgCheckAttach check (pre ++ n :: post) s.status =
      (markInvalidAncestors (setStatusVFailed st2 n.hashOf) post, some (.rule e)) := by
    rw [heq]
    simp only [reorgCheckAttach, hn2, Bool.false_eq_true, if_false, hrule]
  have hmain : reorganizeChain check detach (pre ++ n :: post) s =
      (.ruleFail e,
        { s with status := markInvalidAncestors (setStatusVFailed st2 n.hashOf) post }) := by
    have hne : (detach.isEmpty && (pre ++ n :: post).isEmpty) = false := by
      simp
    rw [reorganizeChain, hne, if_neg (by simp), hguard]
    simp only [Bool.false_eq_true, if_false, hrun]
  rw [hmain]
  refine ⟨rfl, rfl, rfl, rfl, ?_, ?_⟩
  · rw [markInvalidAncestors_validateFailed]
    simp [setStatusVFailed]
  · intro m hm
    exact markInvalidAncestors_marks _ post m hm

/-- Concrete phase-1 failure scenario: tip `1` on top of genesis `0`,
attach branch `2 ← 3` from the same fork, where block `2` violates a
rule. -/
def c2check : Nat → CheckRes := fun h => if h = 2 then .ruleErr 7 else .ok

def c2state : ChainState :=
  { status := fun _ => {}, tipNode := .cons 1 (.genesis 0),
    snapshotHash := 1, log := [] }

def c2detach : List BlockNode := [.cons 1 (.genesis 0)]

def c2n : BlockNode := .cons 2 (.genesis 0)

def c2post : List BlockNode := [.cons 3 (.cons 2 (.genesis 0))]

/-- C2 witness: the scenario above aborts during phase 1 with the rule
error, leaves log/tip/snapshot untouched, marks node 2 ValidateFailed
and node 3 InvalidAncestor. -/
theorem reorganizeChain_phase1_ruleError_witness :
    (reorganizeChain c2check c2detach ([] ++ c2n :: c2post) c2state).1 =
      .ruleFail 7 ∧
    (reorganizeChain c2check c2detach ([] ++ c2n :: c2post) c2state).2.log =
      c2state.log ∧
    (reorganizeChain c2check c2detach ([] ++ c2n :: c2post) c2state).2.tipNode =
      c2state.tipNode ∧
    (reorganizeChain c2check c2detach ([] ++ c2n :: c2post) c2state).2.snapshotHash =
      c2state.snapshotHash ∧
    ((reorganizeChain c2check c2detach ([] ++ c2n :: c2post) c2state).2.status
      c2n.hashOf).validateFailed = true ∧
    ∀ m ∈ c2post, ((reorganizeChain c2check c2detach ([] ++ c2n :: c2post)
      c2state).2.status m.hashOf).invalidAncestor = true :=
  reorganizeChain_phase1_ruleError c2check c2state c2detach [] c2post c2n 7
    (by decide) (by simp) (by simp) (by decide) (by decide)

/-! ### locateInventory (chain.go) -/

/-- The locator scan of locateInventory: the first locator hash that
resolves to a node contained in the main chain, else the genesis
block. -/
def firstLocatorNode (idx : Nat → Option BlockNode) (v : ChainView) :
    List Nat → BlockNode
  | [] => v.genesisNode
  | h :: rest =>
    match idx h with
    | some n => if v.containsNode n then n else firstLocatorNode idx v rest
    | none => firstLocatorNode idx v rest

/-- `locateInventory(locator, hashStop, maxEntries)`.  The block-index
lookup is the map `idx` from hash to node.  With no locators the stop
hash is a direct request for that block; otherwise the scan starts at
the block after the most recent known locator entry, and the total is
clamped by the stop hash and by `maxEntries`. -/
def locateInventory (idx : Nat → Option BlockNode) (v : ChainView)
    (locator : List Nat) (hashStop : Nat) (maxEntries : Nat) :
    Option BlockNode × Nat :=
  let stopNode := idx hashStop
  if locator.isEmpty then
    match stopNode with
    | none => (none, 0)
    | some sn => (some sn, 1)
  else
    let startNode0 := firstLocatorNode idx v locator
    match v.next startNode0 with
    | none => (none, 0)
    | some start =>
      let total0 := (v.tip.height - start.height) + 1
      let total1 :=
        match stopNode with
        | some sn =>
          if v.containsNode sn ∧ start.height ≤ sn.height
          then (sn.height - start.height) + 1 else total0
        | none => total0
      (some start, min total1 maxEntries)

/-- C3 counterexample: main chain genesis `0` with tip `1`; the locator
produced from the tip is `[1, 0]` (first hash the tip's); resolving it
with hashStop = tip's hash does not return (tip, 1) — it returns
(none, 0), because the scan starts after the most recent known locator
block, which is the tip itself. -/
theorem locateInventory_tip_locator_counterexample :
    locateInventory
      (fun h => if h = 0 then some (.genesis 0)
        else if h = 1 then some (.cons 1 (.genesis 0)) else none)
      (ChainView.mk (.cons 1 (.genesis 0))) [1, 0] 1 500 ≠
      (some (.cons 1 (.genesis 0)), 1) := by decide

/-- C3 amended: resolving a locator whose first hash is the tip's hash
with hashStop equal to the tip's hash returns `(none, 0)`; the result
`(tip, 1)` is produced instead for the empty locator with that stop
hash. -/
theorem locateInventory_tip_locator (idx : Nat → Option BlockNode) (v : ChainView)
    (rest : List Nat) (maxEntries : Nat)
    (hidx : idx v.tip.hashOf = some v.tip) :
    locateInventory idx v (v.tip.hashOf :: rest) v.tip.hashOf maxEntries =
      (none, 0) ∧
    locateInventory idx v [] v.tip.hashOf maxEntries = (some v.tip, 1) := by
  constructor
  · have hfirst : firstLocatorNode idx v (v.tip.hashOf :: rest) = v.tip := by
      simp [firstLocatorNode, hidx, containsNode_tip]
    have hnext : v.next v.tip = none := by
      simp only [ChainView.next, containsNode_tip, if_true, ChainView.nodeByHeight]
      exact ancestorAt_none_of_gt _ _ (Nat.lt_succ_self _)
    simp [locateInventory, hfirst, hnext]
  · simp [locateInventory, hidx]

/-- C3 witness: the amended behavior at the concrete two-block chain. -/
theorem locateInventory_tip_locator_witness :
    locateInventory
      (fun h => if h = 0 then some (.genesis 0)
        else if h = 1 then some (.cons 1 (.genesis 0)) else none)
      (ChainView.mk (.cons 1 (.genesis 0)))
      ((ChainView.mk (.cons 1 (.genesis 0))).tip.hashOf :: [0])
      (ChainView.mk (.cons 1 (.genesis 0))).tip.hashOf 500 = (none, 0) ∧
    locateInventory
      (fun h => if h = 0 then some (.genesis 0)
        else if h = 1 then some (.cons 1 (.genesis 0)) else none)
      (ChainView.mk (.cons 1 (.genesis 0))) []
      (ChainView.mk (.cons 1 (.genesis 0))).tip.hashOf 500 =
      (some (ChainView.mk (.cons 1 (.genesis 0))).tip, 1) :=
  locateInventory_tip_locator
    (fun h => if h = 0 then some (.genesis 0)
      else if h = 1 then some (.cons 1 (.genesis 0)) else none)
    (ChainView.mk (.cons 1 (.genesis 0))) [0] 500 (by decide)

/-! ### TipGeneration (chain.go) -/

/-- Modelled from the spec: `chainTips[h]` tracks, for each height, the
set of index entries with that height (blockindex.go is not part of
this source tree). -/
def chainTips (idx : List BlockNode) (h : Nat) : List BlockNode :=
  idx.filter (fun n => n.height = h)

/-- `TipGeneration()`: the hashes of `index.chainTips[tip.height]`. -/
def TipGeneration (idx : List BlockNode) (v : ChainView) : List Nat :=
  (chainTips idx v.tip.height).map BlockNode.hashOf

/-- Scenario 2 of the spec: main chain G(0) ← B1(1) ← B2(2) ← B3(3)
with tip B3, plus side-chain block B2a (hash 10, parent B1, height 2)
present in the index. -/
def scn2b3 : BlockNode := .cons 3 (.cons 2 (.cons 1 (.genesis 0)))

def scn2b2a : BlockNode := .cons 10 (.cons 1 (.genesis 0))

def scn2Index : List BlockNode :=
  [.genesis 0, .cons 1 (.genesis 0), .cons 2 (.cons 1 (.genesis 0)),
   scn2b3, scn2b2a]

def scn2View : ChainView := ChainView.mk scn2b3

/-- C4 counterexample: in scenario 2, TipGeneration does not return a
set containing both B3.hash and B2a.hash — B2a (height 2) is not in
`chainTips[3]`. -/
theorem TipGeneration_scenario2_counterexample :
    ¬ (scn2b3.hashOf ∈ TipGeneration scn2Index scn2View ∧
       scn2b2a.hashOf ∈ TipGeneration scn2Index scn2View) := by decide

/-- C4 amended: in scenario 2, TipGeneration returns exactly the hashes
of the index entries at the tip's height, namely {B3.hash}; B2a.hash is
not included. -/
theorem TipGeneration_scenario2_amended :
    TipGeneration scn2Index scn2View = [scn2b3.hashOf] ∧
    scn2b2a.hashOf ∉ TipGeneration scn2Index scn2View := by decide

/-! ### HeightRange (chain.go) -/

/-- The hash-collection loop of HeightRange: `k` ascending hashes ending
at the given main-chain node (the source fills the result slice from
the back while walking parent links).  The `none` case with a nonzero
count cannot be reached for ranges inside the chain. -/
def hashesAsc : Option BlockNode → Nat → List Nat
  | _, 0 => []
  | none, _ + 1 => []
  | some n, k + 1 => hashesAsc n.parent k ++ [n.hashOf]

/-- `HeightRange(startHeight, endHeight)`: errors for a negative start
or an end before the start, returns the empty result when the range is
empty or starts past the tip, and otherwise collects the main-chain
hashes of `[s, min(e, tip.height+1))` walking down from the clamped end
height. -/
def HeightRange (v : ChainView) (s e : Int) : Except Unit (List Nat) :=
  if s < 0 then .error ()
  else if e < s then .error ()
  else if s = e then .ok []
  else if s > (v.tip.height : Int) then .ok []
  else
    .ok (hashesAsc
      (v.nodeByHeight
        ((if e > (v.tip.height : Int) + 1 then (v.tip.height : Int) + 1 else e) - 1).toNat)
      ((if e > (v.tip.height : Int) + 1 then (v.tip.height : Int) + 1 else e) - s).toNat)

/-- The claim's description of the result: the main-chain hashes of the
half-open height range `[s, min(e, tip.height + 1))`, ascending. -/
def specHeightRange (v : ChainView) (s e : Int) : List Nat :=
  (List.range (min e ((v.tip.height : Int) + 1) - s).toNat).map
    (fun j => (Option.map BlockNode.hashOf (v.nodeByHeight (s.toNat + j))).getD 0)

theorem hashesAsc_spec (v : ChainView) : ∀ (k m : Nat), k ≤ m + 1 →
    m ≤ v.tip.height →
    hashesAsc (v.nodeByHeight m) k =
      (List.range k).map
        (fun j => (Option.map BlockNode.hashOf (v.nodeByHeight (m + 1 - k + j))).getD 0) := by
  intro k
  induction k with
  | zero => intro m _ _; simp [hashesAsc]
  | succ k ih =>
    intro m hk hm
    obtain ⟨n, hn⟩ := ancestorAt_isSome_of_le v.tip m hm
    have hn' : v.nodeByHeight m = some n := hn
    rw [hn']
    show hashesAsc n.parent k ++ [n.hashOf] = _
    by_cases hk0 : k = 0
    · subst hk0
      rw [show List.range 1 = [0] from rfl]
      simp [hashesAsc, hn']
    · have hm1 : 1 ≤ m := by omega
      have hpar : n.parent = v.nodeByHeight (m - 1) := by
        have := ancestorAt_parent v.tip n (m - 1)
        rw [show m - 1 + 1 = m from by omega] at this
        exact this hn
      rw [hpar, ih (m - 1) (by omega) (by omega)]
      rw [List.range_succ, List.map_append]
      rw [show m - 1 + 1 - k = m + 1 - (k + 1) from by omega]
      congr 1
      rw [List.map_singleton]
      rw [show m + 1 - (k + 1) + k = m from by omega, hn']
      rfl

/-- C9: HeightRange errors exactly when `s < 0` or `e < s`, and for all
valid inputs returns the main-chain hashes of `[s, min(e, tip.height+1))`
in ascending height order (empty in particular when `s = e` or when `s`
exceeds the tip height). -/
theorem HeightRange_spec (v : ChainView) (s e : Int) :
    (HeightRange v s e = .error () ↔ (s < 0 ∨ e < s)) ∧
    (0 ≤ s → s ≤ e → HeightRange v s e = .ok (specHeightRange v s e)) := by
  constructor
  · constructor
    · intro h
      unfold HeightRange at h
      split_ifs at h with h1 h2
      · exact Or.inl h1
      · exact Or.inr h2
    · intro h
      unfold HeightRange
      by_cases h1 : s < 0
      · rw [if_pos h1]
      · rcases h with h | h
        · exact absurd h h1
        · rw [if_neg h1, if_pos h]
  · intro hs hse
    unfold HeightRange
    rw [if_neg (by omega), if_neg (by omega)]
    by_cases h3 : s = e
    · rw [if_pos h3]
      have : (min e ((v.tip.height : Int) + 1) - s).toNat = 0 := by omega
      simp [specHeightRange, this]
    · rw [if_neg h3]
      by_cases h4 : s > (v.tip.height : Int)
      · rw [if_pos h4]
        have : (min e ((v.tip.height : Int) + 1) - s).toNat = 0 := by omega
        simp [specHeightRange, this]
      · rw [if_neg h4]
        have he2 : (if e > (v.tip.height : Int) + 1 then (v.tip.height : Int) + 1 else e) =
            min e ((v.tip.height : Int) + 1) := by
          split_ifs with h <;> omega
        rw [he2]
        have hlt : s < e := lt_of_le_of_ne hse h3
        have hk : (min e ((v.tip.height : Int) + 1) - s).toNat ≤
            (min e ((v.tip.height : Int) + 1) - 1).toNat + 1 := by omega
        have hmle : (min e ((v.tip.height : Int) + 1) - 1).toNat ≤ v.tip.height := by
          omega
        rw [hashesAsc_spec v _ _ hk hmle]
        unfold specHeightRange
        rw [show (min e ((v.tip.height : Int) + 1) - 1).toNat + 1 -
            (min e ((v.tip.height : Int) + 1) - s).toNat = s.toNat from by omega]

/-- C9 witness: chain 0 ← 1 ← 2 ← 3 with range [1, 10) clamped to the
tip. -/
theorem HeightRange_spec_witness :
    HeightRange (ChainView.mk (.cons 3 (.cons 2 (.cons 1 (.genesis 0))))) 1 10 =
      .ok (specHeightRange
        (ChainView.mk (.cons 3 (.cons 2 (.cons 1 (.genesis 0))))) 1 10) :=
  (HeightRange_spec (ChainView.mk (.cons 3 (.cons 2 (.cons 1 (.genesis 0))))) 1 10).2
    (by decide) (by decide)

/-! ### pruneStakeNodes (chain.go) -/

/-- The transient per-node stake data the pruner clears (`stakeNode`,
`newTickets`, `ticketsVoted`, `ticketsRevoked`); payloads are abstract
ids. -/
structure Transient where
  stakeNode : Option Nat
  newTickets : Option Nat
  ticketsVoted : Option Nat
  ticketsRevoked : Option Nat
deriving DecidableEq, Repr

/-- Transient stake data of the index, keyed by block hash. -/
abbrev TransMap := Nat → Transient

/-- Assigning nil to all four transient fields of the entry `h`. -/
def clearTransient (m : TransMap) (h : Nat) : TransMap :=
  fun x => if x = h then ⟨none, none, none, none⟩ else m x

/-- `k` parent steps from a node, `none` when the walk runs past
genesis — the bounded walk at the top of pruneStakeNodes. -/
def iterBack : BlockNode → Nat → Option BlockNode
  | n, 0 => some n
  | .genesis _, _ + 1 => none
  | .cons _ p, k + 1 => iterBack p k

/-- A node together with all of its ancestors (the `deleteNodes` list;
the source builds it genesis-first, but the clear operations commute so
the traversal order is irrelevant). -/
def ancestorsList : BlockNode → List BlockNode
  | .genesis h => [.genesis h]
  | .cons h p => .cons h p :: ancestorsList p

/-- `pruneStakeNodes()`: walk `minMemoryStakeNodes - 1 = 287` steps back
from the tip; if that walk or the next parent link runs out, do
nothing; otherwise clear the transient fields on every ancestor from
that node's parent down to genesis whose height is still inside the
retention band `height > tip.height - minMemoryNodes` (with
minMemoryNodes = 2880). -/
def pruneStakeNodes (tip : BlockNode) (m : TransMap) : TransMap :=
  match iterBack tip 287 with
  | none => m
  | some pruneTo =>
    match pruneTo with
    | .genesis _ => m
    | .cons _ start =>
      (ancestorsList start).foldl
        (fun acc node =>
          if (node.height : Int) > (tip.height : Int) - 2880
          then clearTransient acc node.hashOf else acc) m

/-- The linear chain 0 ← 1 ← ⋯ ← n with hash equal to height. -/
def mkChain : Nat → BlockNode
  | 0 => .genesis 0
  | k + 1 => .cons (k + 1) (mkChain k)

/-- All-populated transient data, so that clearing is observable. -/
def c6m : TransMap := fun _ => ⟨some 1, some 1, some 1, some 1⟩

theorem mkChain_height (n : Nat) : (mkChain n).height = n := by
  induction n with
  | zero => rfl
  | succ k ih => simp [mkChain, BlockNode.height, ih]

theorem iterBack_mkChain (k : Nat) : ∀ n : Nat,
    iterBack (mkChain n) k = if k ≤ n then some (mkChain (n - k)) else none := by
  induction k with
  | zero => intro n; simp [iterBack]
  | succ k ih =>
    intro n
    cases n with
    | zero => simp [mkChain, iterBack]
    | succ n =>
      rw [show mkChain (n + 1) = .cons (n + 1) (mkChain n) from rfl]
      rw [show iterBack (.cons (n + 1) (mkChain n)) (k + 1) = iterBack (mkChain n) k
        from rfl]
      rw [ih n]
      by_cases hk : k ≤ n
      · rw [if_pos hk, if_pos (by omega), show n - k = n + 1 - (k + 1) from by omega]
      · rw [if_neg hk, if_neg (by omega)]

theorem mkChain_hash (n : Nat) : (mkChain n).hashOf = n := by
  cases n <;> rfl

set_option maxRecDepth 4000 in
/-- C6 counterexample: on the 291-block chain 0 ← 1 ← ⋯ ← 290,
pruneStakeNodes clears the transient fields of the node with hash 0
(height 0), yet no walk of at most 288 parent steps from tip.parent
(height 289) reaches that node — every such step lands on a height
≥ 1.  So the pruner does modify nodes outside the claimed set. -/
theorem pruneStakeNodes_claim_counterexample :
    pruneStakeNodes (mkChain 290) c6m 0 ≠ c6m 0 ∧
    ((List.range 289).all (fun k =>
      ((iterBack (mkChain 289) k).map BlockNode.hashOf) != some 0)) = true := by
  constructor
  · decide
  · rw [List.all_eq_true]
    intro k hk
    rw [List.mem_range] at hk
    rw [iterBack_mkChain k 289, if_pos (by omega)]
    have hmap : Option.map BlockNode.hashOf (some (mkChain (289 - k))) =
        some (289 - k) := by
      simp [mkChain_hash]
    rw [hmap]
    simp only [bne_iff_ne, ne_eq, Option.some.injEq]
    omega

theorem pruneFold_preserves_cleared (tip : BlockNode) (l : List BlockNode)
    (m : TransMap) (x : Nat) (hx : m x = ⟨none, none, none, none⟩) :
    (l.foldl (fun acc node =>
      if (node.height : Int) > (tip.height : Int) - 2880
      then clearTransient acc node.hashOf else acc) m) x =
      ⟨none, none, none, none⟩ := by
  induction l generalizing m with
  | nil => exact hx
  | cons a rest ih =>
    simp only [List.foldl_cons]
    apply ih
    by_cases hband : (a.height : Int) > (tip.height : Int) - 2880
    · rw [if_pos hband]
      simp only [clearTransient]
      by_cases hxa : x = a.hashOf <;> simp [hxa, hx]
    · rw [if_neg hband]; exact hx

theorem pruneFold_clears (tip : BlockNode) (l : List BlockNode) (m : TransMap)
    (n : BlockNode) (hn : n ∈ l)
    (hband : (n.height : Int) > (tip.height : Int) - 2880) :
    (l.foldl (fun acc node =>
      if (node.height : Int) > (tip.height : Int) - 2880
      then clearTransient acc node.hashOf else acc) m) n.hashOf =
      ⟨none, none, none, none⟩ := by
  induction l generalizing m with
  | nil => simp at hn
  | cons a rest ih =>
    simp only [List.foldl_cons]
    rcases List.mem_cons.mp hn with rfl | hmem
    · apply pruneFold_preserves_cleared
      rw [if_pos hband]
      simp [clearTransient]
    · exact ih _ hmem

theorem pruneFold_untouched (tip : BlockNode) (l : List BlockNode) (m : TransMap)
    (x : Nat)
    (hx : ∀ n ∈ l, (n.height : Int) > (tip.height : Int) - 2880 → n.hashOf ≠ x) :
    (l.foldl (fun acc node =>
      if (node.height : Int) > (tip.height : Int) - 2880
      then clearTransient acc node.hashOf else acc) m) x = m x := by
  induction l generalizing m with
  | nil => rfl
  | cons a rest ih =>
    simp only [List.foldl_cons]
    rw [ih _ (fun q hq => hx q (List.mem_cons_of_mem _ hq))]
    by_cases hband : (a.height : Int) > (tip.height : Int) - 2880
    · rw [if_pos hband]
      simp only [clearTransient]
      rw [if_neg (fun hcontra =>
        hx a (List.mem_cons_self _ _) hband hcontra.symm)]
    · rw [if_neg hband]

/-- C6 amended: pruneStakeNodes clears the four transient fields
exactly on the ancestors reached by walking MORE than 287 steps back
from the tip — i.e. on every ancestor from `pruneTo.parent` (where
`pruneTo` is 287 parent steps below the tip) down to genesis — whose
height satisfies `height > tip.height - 2880`; entries outside that set
are untouched, and the pruner does nothing at all when the chain is too
short for the walk. -/
theorem pruneStakeNodes_spec (tip : BlockNode) (m : TransMap) :
    (iterBack tip 287 = none → pruneStakeNodes tip m = m) ∧
    (∀ g, iterBack tip 287 = some (.genesis g) → pruneStakeNodes tip m = m) ∧
    (∀ d start, iterBack tip 287 = some (.cons d start) →
      (∀ n ∈ ancestorsList start,
        (n.height : Int) > (tip.height : Int) - 2880 →
          pruneStakeNodes tip m n.hashOf = ⟨none, none, none, none⟩) ∧
      (∀ x, (∀ n ∈ ancestorsList start,
          (n.height : Int) > (tip.height : Int) - 2880 → n.hashOf ≠ x) →
        pruneStakeNodes tip m x = m x)) := by
  refine ⟨?_, ?_, ?_⟩
  · intro h
    simp [pruneStakeNodes, h]
  · intro g h
    simp [pruneStakeNodes, h]
  · intro d start h
    constructor
    · intro n hn hband
      simp only [pruneStakeNodes, h]
      exact pruneFold_clears tip (ancestorsList start) m n hn hband
    · intro x hx
      simp only [pruneStakeNodes, h]
      exact pruneFold_untouched tip (ancestorsList start) m x hx

set_option maxRecDepth 4000 in
/-- C6 witness: on the chain 0 ← ⋯ ← 290, the genesis entry (reached
only after 290 > 287 steps, and inside the retention band) is
cleared. -/
theorem pruneStakeNodes_spec_witness :
    pruneStakeNodes (mkChain 290) c6m (mkChain 0).hashOf =
      ⟨none, none, none, none⟩ :=
  ((pruneStakeNodes_spec (mkChain 290) c6m).2.2 3 (mkChain 2) (by decide)).1
    (mkChain 0) (by decide) (by decide)

/-! ### connectBlock entry assertions and countSpentOutputs (chain.go) -/

/-- A regular transaction, reduced to its input count. -/
structure Tx where
  txIn : Nat
deriving DecidableEq, Repr

/-- The stake transaction classification produced by
stake.DetermineTxType (the stake package is not part of this source
tree, so the classification is carried as data on the transaction). -/
inductive StakeTxType where
  | ssgen
  | ssrtx
  | other
deriving DecidableEq, Repr

/-- A stake transaction: input count plus its classified type. -/
structure STx where
  txIn : Nat
  txType : StakeTxType
deriving DecidableEq, Repr

/-- A block as seen by connectBlock/countSpentOutputs: previous-block
hash, vote bits, regular transaction tree, stake transaction tree. -/
structure CBlock where
  prevBlock : Nat
  voteBits : Nat
  txs : List Tx
  stxs : List STx
deriving DecidableEq, Repr

/-- Modelled from the spec: the header approves the parent's regular
transaction tree when the low vote bit is set ("We need to skip the
regular tx tree if it's not valid"; headerApprovesParent lives in
validate.go, which is not part of this source tree). -/
def headerApprovesParent (voteBits : Nat) : Bool := voteBits % 2 = 1

/-- `countSpentOutputs(block, parent)`: when the block approves the
parent, all inputs of the parent's regular transactions past the
coinbase; plus, per stake transaction, a single spent ticket for votes
(SSGen) and revocations (SSRtx) and all inputs otherwise. -/
def countSpentOutputs (block parent : CBlock) : Nat :=
  (if headerApprovesParent block.voteBits then
    ((parent.txs.drop 1).map Tx.txIn).sum
  else 0) +
  (block.stxs.map (fun s =>
    match s.txType with
    | .ssgen => 1
    | .ssrtx => 1
    | .other => s.txIn)).sum

/-- The possible outcomes of connectBlock's two entry assertions, in
source order: a panic when the block does not extend the current tip, a
panic when the provided stxos slice disagrees with
countSpentOutputs(block, parent), else the commit proceeds. -/
inductive ConnectBlockEntry where
  | panicPrevMismatch
  | panicStxosMismatch
  | proceed
deriving DecidableEq, Repr

/-- The entry assertions of connectBlock. -/
def connectBlockAssertions (tipHash : Nat) (block parent : CBlock)
    (stxosLen : Nat) : ConnectBlockEntry :=
  if block.prevBlock ≠ tipHash then .panicPrevMismatch
  else if stxosLen ≠ countSpentOutputs block parent then .panicStxosMismatch
  else .proceed

/-- C8: connectBlock treats its preconditions as fatal assertions — it
panics exactly when the block's previous hash differs from the tip's
hash or when the stxos length disagrees with countSpentOutputs — and
under the two preconditions both panic branches are unreachable and the
commit proceeds. -/
theorem connectBlockAssertions_spec (tipHash : Nat) (block parent : CBlock)
    (stxosLen : Nat) :
    (connectBlockAssertions tipHash block parent stxosLen = .panicPrevMismatch ↔
      block.prevBlock ≠ tipHash) ∧
    (connectBlockAssertions tipHash block parent stxosLen = .panicStxosMismatch ↔
      (block.prevBlock = tipHash ∧ stxosLen ≠ countSpentOutputs block parent)) ∧
    (connectBlockAssertions tipHash block parent stxosLen = .proceed ↔
      (block.prevBlock = tipHash ∧ stxosLen = countSpentOutputs block parent)) := by
  unfold connectBlockAssertions
  split_ifs with h1 h2 <;> simp_all

/-- C8 witness: a concrete block that satisfies both preconditions
proceeds (9 spent outputs: 2 + 4 from the approved parent tree, 1 for
the vote, 2 for the other stake inputs). -/
theorem connectBlockAssertions_spec_witness :
    connectBlockAssertions 5
      (CBlock.mk 5 1 [Tx.mk 2, Tx.mk 3] [STx.mk 4 .ssgen, STx.mk 2 .other])
      (CBlock.mk 9 0 [Tx.mk 1, Tx.mk 2, Tx.mk 4] []) 9 = .proceed :=
  ((connectBlockAssertions_spec 5
      (CBlock.mk 5 1 [Tx.mk 2, Tx.mk 3] [STx.mk 4 .ssgen, STx.mk 2 .other])
      (CBlock.mk 9 0 [Tx.mk 1, Tx.mk 2, Tx.mk 4] []) 9).2.2).mpr (by decide)

/-! ### GetVoteInfo (chain.go) -/

/-- A consensus deployment, reduced to its vote id. -/
structure Deployment where
  voteId : Nat
deriving DecidableEq, Repr

/-- The error kinds GetVoteInfo can produce or propagate. -/
inductive VoteErr where
  | voteVersion (v : Nat)
  | hashErr (h : Nat)
  | otherErr (code : Nat)
deriving DecidableEq, Repr

/-- GetVoteInfo's result: agendas and their threshold states. -/
structure VoteInfo where
  agendas : List Deployment
  agendaStatus : List Nat
deriving DecidableEq, Repr

/-- The per-agenda loop of GetVoteInfo: collect each deployment, query
NextThresholdState for it, and propagate the first error. -/
def voteInfoLoop (nts : Nat → Nat → Nat → Except VoteErr Nat)
    (hash version : Nat) : List Deployment → Except VoteErr VoteInfo
  | [] => .ok ⟨[], []⟩
  | d :: rest =>
    match nts hash version d.voteId with
    | .error e => .error e
    | .ok status =>
      match voteInfoLoop nts hash version rest with
      | .error e => .error e
      | .ok vi => .ok ⟨d :: vi.agendas, status :: vi.agendaStatus⟩

/-- `GetVoteInfo(hash, version)`.  `deployments` is the chain
parameters' version → deployments map and `nts` is NextThresholdState,
an oracle here (thresholdstate.go is not part of this source tree).
The source tests the same `ok` twice; the second, dead test (the
HashError return) is kept verbatim. -/
def GetVoteInfo (deployments : Nat → Option (List Deployment))
    (nts : Nat → Nat → Nat → Except VoteErr Nat)
    (hash version : Nat) : Except VoteErr VoteInfo :=
  if (deployments version).isNone then .error (.voteVersion version)
  else if (deployments version).isNone then .error (.hashErr hash)
  else voteInfoLoop nts hash version ((deployments version).getD [])

theorem voteInfoLoop_error_from_nts (nts : Nat → Nat → Nat → Except VoteErr Nat)
    (hash version : Nat) : ∀ (l : List Deployment) (e : VoteErr),
    voteInfoLoop nts hash version l = .error e →
    ∃ i, nts hash version i = .error e := by
  intro l
  induction l with
  | nil => intro e h; simp [voteInfoLoop] at h
  | cons d rest ih =>
    intro e h
    simp only [voteInfoLoop] at h
    cases hnt : nts hash version d.voteId with
    | error e2 =>
      rw [hnt] at h
      injection h with h2
      exact ⟨d.voteId, by rw [hnt, h2]⟩
    | ok status =>
      rw [hnt] at h
      cases hrec : voteInfoLoop nts hash version rest with
      | error e2 =>
        rw [hrec] at h
        injection h with h2
        exact h2 ▸ ih e2 hrec
      | ok vi =>
        rw [hrec] at h
        exact absurd h (by simp)

/-- C10: provided NextThresholdState itself never reports a
VoteVersionError or a HashError, GetVoteInfo returns
VoteVersionError(version) exactly when the chain parameters define no
deployments for that version, and it never returns a HashError — the
second test of the same `ok` value is unreachable. -/
theorem GetVoteInfo_spec (deployments : Nat → Option (List Deployment))
    (nts : Nat → Nat → Nat → Except VoteErr Nat) (hash version : Nat)
    (hnts : ∀ h v i, (∀ w, nts h v i ≠ .error (.voteVersion w)) ∧
      (∀ s, nts h v i ≠ .error (.hashErr s))) :
    (GetVoteInfo deployments nts hash version = .error (.voteVersion version) ↔
      deployments version = none) ∧
    (∀ s, GetVoteInfo deployments nts hash version ≠ .error (.hashErr s)) := by
  cases hdep : deployments version with
  | none =>
    constructor
    · simp [GetVoteInfo, hdep]
    · intro s
      simp [GetVoteInfo, hdep]
  | some deps =>
    have hne : (deployments version).isNone = false := by simp [hdep]
    constructor
    · rw [GetVoteInfo, hne]
      simp only [Bool.false_eq_true, if_false]
      constructor
      · intro h
        obtain ⟨i, hi⟩ := voteInfoLoop_error_from_nts nts hash version _ _ h
        exact absurd hi ((hnts hash version i).1 version)
      · intro h
        exact absurd h (by simp)
    · intro s
      rw [GetVoteInfo, hne]
      simp only [Bool.false_eq_true, if_false]
      intro h
      obtain ⟨i, hi⟩ := voteInfoLoop_error_from_nts nts hash version _ _ h
      exact absurd hi ((hnts hash version i).2 s)

/-- C10 witness: a deployments map defined only for version 4 and an
oracle that always succeeds; querying version 5 yields
VoteVersionError(5). -/
theorem GetVoteInfo_spec_witness :
    GetVoteInfo (fun v => if v = 4 then some [Deployment.mk 1] else none)
      (fun _ _ _ => .ok 2) 8 5 = .error (.voteVersion 5) :=
  (GetVoteInfo_spec (fun v => if v = 4 then some [Deployment.mk 1] else none)
      (fun _ _ _ => .ok 2) 8 5
      (fun _ _ _ => ⟨fun _ hc => Except.noConfusion hc,
        fun _ hc => Except.noConfusion hc⟩)).1.mpr (by decide)

/-! ### Orphan pool (chain.go): addOrphanBlock / removeOrphanBlock -/

/-- maxOrphanBlocks = 500. -/
def maxOrphanBlocks : Nat := 500

/-- An orphan record: the block's hash, its parent hash and the
expiration instant (time is in seconds). -/
structure OrphanRec where
  hash : Nat
  prevHash : Nat
  expiration : Nat
deriving DecidableEq, Repr

/-- The orphan pool: the hash-keyed map (a list with at most one record
per hash, mirroring the Go map), the parent-hash index and the cached
oldest-orphan pointer. -/
structure OrphanPool where
  orphans : List OrphanRec
  prevOrphans : Nat → List OrphanRec
  oldestOrphan : Option OrphanRec

/-- `removeOrphanBlock(orphan)`: delete the record from the hash map
and delete every entry with the block's hash from its parent's bucket
(a bucket going empty corresponds to the empty list). -/
def removeOrphanBlock (o : OrphanRec) (p : OrphanPool) : OrphanPool :=
  { orphans := p.orphans.filter (fun r => r.hash ≠ o.hash),
    prevOrphans := fun h =>
      if h = o.prevHash
      then (p.prevOrphans o.prevHash).filter (fun r => r.hash ≠ o.hash)
      else p.prevOrphans h,
    oldestOrphan := p.oldestOrphan }

/-- One step of addOrphanBlock's scan over the pool: drop the record if
it has expired (`now.After(expiration)` is strict), otherwise keep it
and pull the oldest-orphan pointer down to it when it expires
earlier. -/
def orphanScanStep (now : Nat) (p : OrphanPool) (o : OrphanRec) : OrphanPool :=
  if now > o.expiration then removeOrphanBlock o p
  else if (match p.oldestOrphan with
    | none => true
    | some old => decide (o.expiration < old.expiration))
  then { p with oldestOrphan := some o } else p

/-- The capacity check of addOrphanBlock: if inserting would exceed
maxOrphanBlocks, evict the tracked oldest orphan (the source
dereferences a nil pointer when none is tracked, embedded as `none`)
and reset the pointer. -/
def orphanEvictPhase (p1 : OrphanPool) : Option OrphanPool :=
  if p1.orphans.length + 1 > maxOrphanBlocks then
    match p1.oldestOrphan with
    | none => none
    | some old => some { (removeOrphanBlock old p1) with oldestOrphan := none }
  else some p1

/-- The insertion at the end of addOrphanBlock: store the record under
its hash (a Go map assignment, replacing any record with that hash)
with expiration one hour from now, and append it to its parent's
bucket. -/
def orphanInsert (now bHash bPrev : Nat) (p2 : OrphanPool) : OrphanPool :=
  { orphans := ⟨bHash, bPrev, now + 3600⟩ ::
      p2.orphans.filter (fun r => r.hash ≠ bHash),
    prevOrphans := fun h =>
      if h = bPrev then p2.prevOrphans bPrev ++ [⟨bHash, bPrev, now + 3600⟩]
      else p2.prevOrphans h,
    oldestOrphan := p2.oldestOrphan }

/-- `addOrphanBlock(block)`: scan the pool, removing expired records
and tracking the oldest; evict for capacity if needed; then insert. -/
def addOrphanBlock (now bHash bPrev : Nat) (p : OrphanPool) :
    Option OrphanPool :=
  (orphanEvictPhase (p.orphans.foldl (orphanScanStep now) p)).map
    (orphanInsert now bHash bPrev)

/-- The pool from which the duplicate insert is attempted: one live
record, hash 1, parent 9, expiring at 100. -/
def c5pool : OrphanPool :=
  { orphans := [⟨1, 9, 100⟩],
    prevOrphans := fun h => if h = 9 then [⟨1, 9, 100⟩] else [],
    oldestOrphan := none }

/-- C5 counterexample: re-adding the block whose hash 1 is already in
the pool at time 50 (before its expiration) is NOT a no-op — the stored
record's expiration moves to 50 + 3600 = 3650 and the parent bucket
gains a second entry. -/
theorem addOrphanBlock_duplicate_counterexample :
    (addOrphanBlock 50 1 9 c5pool).map OrphanPool.orphans ≠
      some c5pool.orphans ∧
    (addOrphanBlock 50 1 9 c5pool).map (fun p => p.prevOrphans 9) ≠
      some (c5pool.prevOrphans 9) := by
  constructor <;> decide

/-- At most one record per hash — the map view of the pool. -/
def hashUnique (l : List OrphanRec) : Prop :=
  ∀ a ∈ l, ∀ b ∈ l, a.hash = b.hash → a = b

/-- The oldest-orphan tracking of the scan, on its own. -/
def scanOldest (l : List OrphanRec) (init : Option OrphanRec) : Option OrphanRec :=
  l.foldl (fun b o =>
    if (match b with
      | none => true
      | some bb => decide (o.expiration < bb.expiration))
    then some o else b) init

theorem orphanScan_noExpired (now : Nat) : ∀ (l : List OrphanRec) (p : OrphanPool),
    (∀ o ∈ l, ¬ now > o.expiration) →
    (l.foldl (orphanScanStep now) p).orphans = p.orphans ∧
    (l.foldl (orphanScanStep now) p).prevOrphans = p.prevOrphans ∧
    (l.foldl (orphanScanStep now) p).oldestOrphan =
      scanOldest l p.oldestOrphan := by
  intro l
  induction l with
  | nil => exact fun p _ => ⟨rfl, rfl, rfl⟩
  | cons o rest ih =>
    intro p hexp
    have ho : ¬ now > o.expiration := hexp o (List.mem_cons_self _ _)
    have hstep : orphanScanStep now p o =
        if (match p.oldestOrphan with
          | none => true
          | some bb => decide (o.expiration < bb.expiration))
        then { p with oldestOrphan := some o } else p := by
      simp [orphanScanStep, ho]
    simp only [List.foldl_cons, hstep]
    have hrest : ∀ q ∈ rest, ¬ now > q.expiration :=
      fun q hq => hexp q (List.mem_cons_of_mem _ hq)
    by_cases hcond : (match p.oldestOrphan with
      | none => true
      | some bb => decide (o.expiration < bb.expiration)) = true
    · rw [if_pos hcond]
      obtain ⟨h1, h2, h3⟩ := ih { p with oldestOrphan := some o } hrest
      refine ⟨h1, h2, ?_⟩
      rw [h3]
      simp only [scanOldest, List.foldl_cons]
      rw [if_pos hcond]
    · rw [if_neg hcond]
      obtain ⟨h1, h2, h3⟩ := ih p hrest
      refine ⟨h1, h2, ?_⟩
      rw [h3]
      simp only [scanOldest, List.foldl_cons]
      rw [if_neg hcond]

theorem scanOldest_spec : ∀ (l : List OrphanRec) (init : Option OrphanRec)
    (r : OrphanRec), scanOldest l init = some r →
    (r ∈ l ∨ init = some r) ∧
    (∀ o ∈ l, ¬ o.expiration < r.expiration) ∧
    (∀ b, init = some b → ¬ b.expiration < r.expiration) := by
  intro l
  induction l with
  | nil =>
    intro init r h
    simp only [scanOldest, List.foldl_nil] at h
    refine ⟨Or.inr h, by simp, ?_⟩
    intro b hb
    rw [h] at hb
    injection hb with hb
    subst hb
    exact lt_irrefl _
  | cons o rest ih =>
    intro init r h
    simp only [scanOldest, List.foldl_cons] at h
    cases init with
    | none =>
      rw [show (if (match (none : Option OrphanRec) with
          | none => true
          | some bb => decide (o.expiration < bb.expiration)) = true
          then some o else none) = some o from rfl] at h
      obtain ⟨hmem, hmin, hinit⟩ := ih (some o) r h
      have hor : ¬ o.expiration < r.expiration := hinit o rfl
      refine ⟨?_, ?_, ?_⟩
      · rcases hmem with hm | hm
        · exact Or.inl (List.mem_cons_of_mem _ hm)
        · injection hm with hm
          exact Or.inl (hm ▸ List.mem_cons_self _ _)
      · intro q hq
        rcases List.mem_cons.mp hq with rfl | hq
        · exact hor
        · exact hmin q hq
      · intro b hb
        exact absurd hb (by simp)
    | some bb =>
      by_cases hlt : o.expiration < bb.expiration
      · rw [if_pos (decide_eq_true hlt)] at h
        obtain ⟨hmem, hmin, hinit⟩ := ih (some o) r h
        have hor : ¬ o.expiration < r.expiration := hinit o rfl
        refine ⟨?_, ?_, ?_⟩
        · rcases hmem with hm | hm
          · exact Or.inl (List.mem_cons_of_mem _ hm)
          · injection hm with hm
            exact Or.inl (hm ▸ List.mem_cons_self _ _)
        · intro q hq
          rcases List.mem_cons.mp hq with rfl | hq
          · exact hor
          · exact hmin q hq
        · intro b hb
          injection hb with hb
          subst hb
          omega
      · have hcondF : ¬ ((match (some bb : Option OrphanRec) with
            | none => true
            | some bb2 => decide (o.expiration < bb2.expiration)) = true) := by
          simpa using hlt
        rw [if_neg hcondF] at h
        obtain ⟨hmem, hmin, hinit⟩ := ih (some bb) r h
        have hbr : ¬ bb.expiration < r.expiration := hinit bb rfl
        refine ⟨?_, ?_, ?_⟩
        · rcases hmem with hm | hm
          · exact Or.inl (List.mem_cons_of_mem _ hm)
          · exact Or.inr hm
        · intro q hq
          rcases List.mem_cons.mp hq with rfl | hq
          · omega
          · exact hmin q hq
        · intro b hb
          injection hb with hb
          subst hb
          exact hbr

theorem scanOldest_isSome_of_some : ∀ (l : List OrphanRec) (b : OrphanRec),
    ∃ r, scanOldest l (some b) = some r := by
  intro l
  induction l with
  | nil => exact fun b => ⟨b, rfl⟩
  | cons o rest ih =>
    intro b
    simp only [scanOldest, List.foldl_cons]
    by_cases hcond : (match some b with
      | none => true
      | some bb => decide (o.expiration < bb.expiration)) = true
    · rw [if_pos hcond]; exact ih o
    · rw [if_neg hcond]; exact ih b

theorem scanOldest_isSome_of_nonempty (o : OrphanRec) (rest : List OrphanRec) :
    ∃ r, scanOldest (o :: rest) none = some r := by
  simp only [scanOldest, List.foldl_cons]
  exact scanOldest_isSome_of_some rest o

theorem orphanScanStep_notExpired (now : Nat) (p : OrphanPool) (o : OrphanRec)
    (h : ¬ now > o.expiration) :
    (orphanScanStep now p o).orphans = p.orphans ∧
    (orphanScanStep now p o).prevOrphans = p.prevOrphans := by
  simp only [orphanScanStep, if_neg h]
  split <;> exact ⟨rfl, rfl⟩

theorem orphanScan_orphans (now : Nat) : ∀ (l : List OrphanRec) (p : OrphanPool),
    (∀ o ∈ l, o ∈ p.orphans) → hashUnique p.orphans →
    l.Pairwise (fun a b => a.hash ≠ b.hash) →
    (l.foldl (orphanScanStep now) p).orphans =
      p.orphans.filter (fun r =>
        !(decide (now > r.expiration) &&
          (l.map OrphanRec.hash).contains r.hash)) := by
  intro l
  induction l with
  | nil =>
    intro p _ _ _
    simp
  | cons o rest ih =>
    intro p hsub hU hpair
    have homem : o ∈ p.orphans := hsub o (List.mem_cons_self _ _)
    have hpairtail : rest.Pairwise (fun a b => a.hash ≠ b.hash) :=
      (List.pairwise_cons.mp hpair).2
    have hheads : ∀ q ∈ rest, o.hash ≠ q.hash := (List.pairwise_cons.mp hpair).1
    simp only [List.foldl_cons]
    by_cases hexp : now > o.expiration
    · have hstep : orphanScanStep now p o = removeOrphanBlock o p := by
        simp [orphanScanStep, hexp]
      rw [hstep]
      have hsub2 : ∀ q ∈ rest, q ∈ (removeOrphanBlock o p).orphans := by
        intro q hq
        simp only [removeOrphanBlock]
        refine List.mem_filter.mpr ⟨hsub q (List.mem_cons_of_mem _ hq), ?_⟩
        simp only [decide_eq_true_eq]
        exact fun hc => hheads q hq hc.symm
      have hU2 : hashUnique (removeOrphanBlock o p).orphans := by
        intro a ha b hb hab
        simp only [removeOrphanBlock] at ha hb
        exact hU a (List.mem_of_mem_filter ha) b (List.mem_of_mem_filter hb) hab
      rw [ih (removeOrphanBlock o p) hsub2 hU2 hpairtail]
      simp only [removeOrphanBlock]
      rw [List.filter_filter]
      apply List.filter_congr
      intro r hr
      by_cases hro : r.hash = o.hash
      · have hreqo : r = o := hU r hr o homem hro
        subst hreqo
        simp [hexp, hro]
      · simp [hro, Ne.symm]
    · have hstep1 := orphanScanStep_notExpired now p o hexp
      have hsub2 : ∀ q ∈ rest, q ∈ (orphanScanStep now p o).orphans := by
        rw [hstep1.1]
        exact fun q hq => hsub q (List.mem_cons_of_mem _ hq)
      have hU2 : hashUnique (orphanScanStep now p o).orphans := by
        rw [hstep1.1]; exact hU
      rw [ih (orphanScanStep now p o) hsub2 hU2 hpairtail, hstep1.1]
      apply List.filter_congr
      intro r hr
      by_cases hro : r.hash = o.hash
      · have hreqo : r = o := hU r hr o homem hro
        subst hreqo
        simp [hexp]
      · simp [hro]

/-- The oldest-orphan pointer after the scan, with no assumption on
expired records: expired records are removed without being considered,
so the pointer ends at the fold-minimum over the surviving records,
seeded with whatever the pointer held at entry. -/
theorem orphanScan_oldest (now : Nat) : ∀ (l : List OrphanRec) (p : OrphanPool),
    (l.foldl (orphanScanStep now) p).oldestOrphan =
      scanOldest (l.filter (fun r => !(decide (now > r.expiration))))
        p.oldestOrphan := by
  intro l
  induction l with
  | nil => intro p; rfl
  | cons o rest ih =>
    intro p
    by_cases hexp : now > o.expiration
    · have hfilter : List.filter (fun r => !(decide (now > r.expiration)))
          (o :: rest) =
          List.filter (fun r => !(decide (now > r.expiration))) rest := by
        simp [hexp]
      rw [hfilter]
      have hstep : orphanScanStep now p o = removeOrphanBlock o p := by
        simp [orphanScanStep, hexp]
      simp only [List.foldl_cons, hstep]
      rw [ih (removeOrphanBlock o p)]
      rfl
    · have hfilter : List.filter (fun r => !(decide (now > r.expiration)))
          (o :: rest) =
          o :: List.filter (fun r => !(decide (now > r.expiration))) rest := by
        simp [hexp]
      rw [hfilter]
      simp only [List.foldl_cons]
      rw [ih (orphanScanStep now p o)]
      have hold2 : (orphanScanStep now p o).oldestOrphan =
          (if (match p.oldestOrphan with
            | none => true
            | some bb => decide (o.expiration < bb.expiration)) = true
          then some o else p.oldestOrphan) := by
        simp only [orphanScanStep, if_neg hexp]
        by_cases hcond : (match p.oldestOrphan with
          | none => true
          | some bb => decide (o.expiration < bb.expiration)) = true
        · rw [if_pos hcond, if_pos hcond]
        · rw [if_neg hcond, if_neg hcond]
      rw [hold2]
      simp only [scanOldest, List.foldl_cons]

/-- C5 amended: addOrphanBlock first evicts every expired record while
tracking the earliest-expiring surviving record in the persistent
oldestOrphan pointer, seeded with whatever the pointer held at entry;
then, if inserting would exceed maxOrphanBlocks, it removes whichever
record that pointer tracks — the single remaining record with the
earliest expiration whenever the pointer was nil at entry, but a stale
pointer from an earlier call (tracking a record no longer in the pool)
evicts nothing; then it inserts.  A duplicate insert is NOT a no-op:
the stored record is replaced with a fresh one-hour expiration and the
fresh record is appended to the prev_orphans bucket. -/
theorem addOrphanBlock_spec (now bHash bPrev : Nat) (p : OrphanPool)
    (hU : hashUnique p.orphans)
    (hpair : p.orphans.Pairwise (fun a b => a.hash ≠ b.hash)) :
    ((p.orphans.foldl (orphanScanStep now) p).orphans =
      p.orphans.filter (fun r => !(decide (now > r.expiration)))) ∧
    ((p.orphans.foldl (orphanScanStep now) p).oldestOrphan =
      scanOldest (p.orphans.filter (fun r => !(decide (now > r.expiration))))
        p.oldestOrphan) ∧
    (∀ m, scanOldest (p.orphans.filter (fun r => !(decide (now > r.expiration))))
        p.oldestOrphan = some m →
      (p.orphans.filter (fun r => !(decide (now > r.expiration)))).length + 1 >
        maxOrphanBlocks →
      (addOrphanBlock now bHash bPrev p).map OrphanPool.orphans =
        some (⟨bHash, bPrev, now + 3600⟩ ::
          (((p.orphans.filter (fun r => !(decide (now > r.expiration)))).filter
            (fun r => r.hash ≠ m.hash)).filter (fun r => r.hash ≠ bHash)))) ∧
    (p.oldestOrphan = none →
      (p.orphans.filter (fun r => !(decide (now > r.expiration)))).length + 1 >
        maxOrphanBlocks →
      ∃ m, scanOldest (p.orphans.filter (fun r => !(decide (now > r.expiration))))
          none = some m ∧
        m ∈ p.orphans.filter (fun r => !(decide (now > r.expiration))) ∧
        (∀ o ∈ p.orphans.filter (fun r => !(decide (now > r.expiration))),
          ¬ o.expiration < m.expiration) ∧
        (addOrphanBlock now bHash bPrev p).map OrphanPool.orphans =
          some (⟨bHash, bPrev, now + 3600⟩ ::
            (((p.orphans.filter (fun r => !(decide (now > r.expiration)))).filter
              (fun r => r.hash ≠ m.hash)).filter (fun r => r.hash ≠ bHash)))) ∧
    (∀ m, scanOldest (p.orphans.filter (fun r => !(decide (now > r.expiration))))
        p.oldestOrphan = some m →
      (∀ r ∈ p.orphans.filter (fun r => !(decide (now > r.expiration))),
        r.hash ≠ m.hash) →
      (p.orphans.filter (fun r => !(decide (now > r.expiration)))).length + 1 >
        maxOrphanBlocks →
      (addOrphanBlock now bHash bPrev p).map OrphanPool.orphans =
        some (⟨bHash, bPrev, now + 3600⟩ ::
          (p.orphans.filter (fun r => !(decide (now > r.expiration)))).filter
            (fun r => r.hash ≠ bHash))) ∧
    (∀ r0 ∈ p.orphans, r0.hash = bHash → r0.expiration ≠ now + 3600 →
      (p.orphans.filter (fun r => !(decide (now > r.expiration)))).length + 1 ≤
        maxOrphanBlocks →
      (addOrphanBlock now bHash bPrev p).map OrphanPool.orphans =
        some (⟨bHash, bPrev, now + 3600⟩ ::
          (p.orphans.filter (fun r => !(decide (now > r.expiration)))).filter
            (fun r => r.hash ≠ bHash)) ∧
      (∀ q, addOrphanBlock now bHash bPrev p = some q →
        r0 ∉ q.orphans ∧
        ∃ pre, q.prevOrphans bPrev = pre ++ [⟨bHash, bPrev, now + 3600⟩]) ∧
      ((∀ o ∈ p.orphans, ¬ now > o.expiration) →
        (addOrphanBlock now bHash bPrev p).map (fun q => q.prevOrphans bPrev) =
          some (p.prevOrphans bPrev ++ [⟨bHash, bPrev, now + 3600⟩]))) := by
  have hsurv : (p.orphans.foldl (orphanScanStep now) p).orphans =
      p.orphans.filter (fun r => !(decide (now > r.expiration))) := by
    rw [orphanScan_orphans now p.orphans p (fun o h => h) hU hpair]
    apply List.filter_congr
    intro r hr
    have hmm : r.hash ∈ p.orphans.map OrphanRec.hash :=
      List.mem_map_of_mem _ hr
    have hc : (p.orphans.map OrphanRec.hash).contains r.hash = true :=
      List.elem_eq_true_of_mem hmm
    rw [hc, Bool.and_true]
  have holdeq : (p.orphans.foldl (orphanScanStep now) p).oldestOrphan =
      scanOldest (p.orphans.filter (fun r => !(decide (now > r.expiration))))
        p.oldestOrphan := orphanScan_oldest now p.orphans p
  have h3 : ∀ m, scanOldest
      (p.orphans.filter (fun r => !(decide (now > r.expiration))))
      p.oldestOrphan = some m →
      (p.orphans.filter (fun r => !(decide (now > r.expiration)))).length + 1 >
        maxOrphanBlocks →
      (addOrphanBlock now bHash bPrev p).map OrphanPool.orphans =
        some (⟨bHash, bPrev, now + 3600⟩ ::
          (((p.orphans.filter (fun r => !(decide (now > r.expiration)))).filter
            (fun r => r.hash ≠ m.hash)).filter (fun r => r.hash ≠ bHash))) := by
    intro m hm hcap
    have holdm : (p.orphans.foldl (orphanScanStep now) p).oldestOrphan =
        some m := holdeq.trans hm
    have hevict : orphanEvictPhase (p.orphans.foldl (orphanScanStep now) p) =
        some { removeOrphanBlock m (p.orphans.foldl (orphanScanStep now) p) with
          oldestOrphan := none } := by
      simp only [orphanEvictPhase, holdm]
      rw [if_pos (by rw [hsurv]; exact hcap)]
    simp [addOrphanBlock, hevict, orphanInsert, removeOrphanBlock, hsurv]
  refine ⟨hsurv, holdeq, h3, ?_, ?_, ?_⟩
  · intro hold hcap
    obtain ⟨m, hm⟩ : ∃ m, scanOldest
        (p.orphans.filter (fun r => !(decide (now > r.expiration)))) none =
        some m := by
      cases hl : p.orphans.filter (fun r => !(decide (now > r.expiration))) with
      | nil =>
        rw [hl] at hcap
        simp [maxOrphanBlocks] at hcap
      | cons o rest2 => exact scanOldest_isSome_of_nonempty o rest2
    obtain ⟨hmem0, hmin, _⟩ := scanOldest_spec
      (p.orphans.filter (fun r => !(decide (now > r.expiration)))) none m hm
    have hmem : m ∈ p.orphans.filter (fun r => !(decide (now > r.expiration))) := by
      rcases hmem0 with h | h
      · exact h
      · exact absurd h (by simp)
    exact ⟨m, hm, hmem, hmin, h3 m (by rw [hold]; exact hm) hcap⟩
  · intro m hm hstale hcap
    have heq := h3 m hm hcap
    have hself : (p.orphans.filter
        (fun r => !(decide (now > r.expiration)))).filter
        (fun r => r.hash ≠ m.hash) =
        p.orphans.filter (fun r => !(decide (now > r.expiration))) :=
      List.filter_eq_self.mpr (fun r hr => by simpa using hstale r hr)
    rw [hself] at heq
    exact heq
  · intro r0 hr0 hhash hexpne hlen
    have hevict : orphanEvictPhase (p.orphans.foldl (orphanScanStep now) p) =
        some (p.orphans.foldl (orphanScanStep now) p) := by
      simp only [orphanEvictPhase]
      rw [if_neg (by rw [hsurv]; omega)]
    refine ⟨?_, ?_, ?_⟩
    · simp [addOrphanBlock, hevict, orphanInsert, hsurv]
    · intro q hq
      simp only [addOrphanBlock, hevict, Option.map] at hq
      injection hq with hq
      subst hq
      constructor
      · simp only [orphanInsert, List.mem_cons]
        rintro (heq | hmemf)
        · exact hexpne (by rw [heq])
        · have hkeep := List.of_mem_filter hmemf
          simp [hhash] at hkeep
      · refine ⟨(p.orphans.foldl (orphanScanStep now) p).prevOrphans bPrev, ?_⟩
        simp [orphanInsert]
    · intro hnexp
      obtain ⟨_, h1p, _⟩ := orphanScan_noExpired now p.orphans p hnexp
      simp [addOrphanBlock, hevict, orphanInsert, h1p]

/-- A pool at capacity: 500 live records, hashes 10..509, expirations
1000..1499, parent 9, oldest-orphan pointer nil. -/
def c5big : OrphanPool :=
  { orphans := (List.range 500).map (fun i => ⟨i + 10, 9, 1000 + i⟩),
    prevOrphans := fun h =>
      if h = 9 then (List.range 500).map (fun i => ⟨i + 10, 9, 1000 + i⟩)
      else [],
    oldestOrphan := none }

set_option maxRecDepth 8000 in
theorem c5big_hashUnique : hashUnique c5big.orphans := by
  intro a ha b hb hab
  simp only [c5big, List.mem_map, List.mem_range] at ha hb
  obtain ⟨i, hi, rfl⟩ := ha
  obtain ⟨j, hj, rfl⟩ := hb
  have hij : i = j := by simpa using hab
  subst hij
  rfl

set_option maxRecDepth 8000 in
theorem c5big_pairwise : c5big.orphans.Pairwise (fun a b => a.hash ≠ b.hash) := by
  simp only [c5big]
  rw [List.pairwise_map]
  apply List.Pairwise.imp ?_ (List.pairwise_lt_range 500)
  intro i j hij
  simp only [ne_eq]
  omega

set_option maxRecDepth 8000 in
theorem c5big_filter :
    c5big.orphans.filter (fun r => !(decide (50 > r.expiration))) =
      c5big.orphans := by
  apply List.filter_eq_self.mpr
  intro r hr
  simp only [c5big, List.mem_map, List.mem_range] at hr
  obtain ⟨i, hi, rfl⟩ := hr
  simp only [Bool.not_eq_eq_eq_not, Bool.not_true, decide_eq_false_iff_not]
  omega

set_option maxRecDepth 8000 in
theorem c5big_caplen :
    (c5big.orphans.filter (fun r => !(decide (50 > r.expiration)))).length + 1 >
      maxOrphanBlocks := by
  rw [c5big_filter]
  simp [c5big, maxOrphanBlocks]

/-- C5 witness: (i) re-adding hash 1 to the one-record pool replaces
the record with a fresh expiration, appends the fresh record to the
parent bucket, and the original record is gone; (ii) on the full
500-record pool with a nil pointer, the at-capacity insert evicts the
earliest-expiring survivor. -/
theorem addOrphanBlock_spec_witness :
    ((addOrphanBlock 50 1 9 c5pool).map OrphanPool.orphans =
      some (⟨1, 9, 50 + 3600⟩ ::
        (c5pool.orphans.filter (fun r => !(decide (50 > r.expiration)))).filter
          (fun r => r.hash ≠ 1))) ∧
    ((addOrphanBlock 50 1 9 c5pool).map (fun q => q.prevOrphans 9) =
      some (c5pool.prevOrphans 9 ++ [⟨1, 9, 50 + 3600⟩])) ∧
    (∀ q, addOrphanBlock 50 1 9 c5pool = some q →
      (⟨1, 9, 100⟩ : OrphanRec) ∉ q.orphans) ∧
    (∃ m, scanOldest
        (c5big.orphans.filter (fun r => !(decide (50 > r.expiration)))) none =
        some m ∧
      m ∈ c5big.orphans.filter (fun r => !(decide (50 > r.expiration))) ∧
      (∀ o ∈ c5big.orphans.filter (fun r => !(decide (50 > r.expiration))),
        ¬ o.expiration < m.expiration) ∧
      (addOrphanBlock 50 7 9 c5big).map OrphanPool.orphans =
        some (⟨7, 9, 50 + 3600⟩ ::
          (((c5big.orphans.filter (fun r => !(decide (50 > r.expiration)))).filter
            (fun r => r.hash ≠ m.hash)).filter (fun r => r.hash ≠ 7)))) := by
  refine ⟨?_, ?_, ?_, ?_⟩
  · exact ((addOrphanBlock_spec 50 1 9 c5pool (by unfold hashUnique; decide)
      (by decide)).2.2.2.2.2 ⟨1, 9, 100⟩ (by decide) (by decide) (by decide)
      (by decide)).1
  · exact ((addOrphanBlock_spec 50 1 9 c5pool (by unfold hashUnique; decide)
      (by decide)).2.2.2.2.2 ⟨1, 9, 100⟩ (by decide) (by decide) (by decide)
      (by decide)).2.2 (by decide)
  · intro q hq
    exact (((addOrphanBlock_spec 50 1 9 c5pool (by unfold hashUnique; decide)
      (by decide)).2.2.2.2.2 ⟨1, 9, 100⟩ (by decide) (by decide) (by decide)
      (by decide)).2.1 q hq).1
  · exact (addOrphanBlock_spec 50 7 9 c5big c5big_hashUnique
      c5big_pairwise).2.2.2.1 rfl c5big_caplen
